import Mathlib

/-!
Shallow embedding of the CLBT repository (cross-lingual BERT alignment trainer)
and proofs about its claims.

Source files embedded here:
- `src/src/supervised_bert_trainer.py`: `SupervisedBertTrainer.select`,
  `rearange`, `supervised_mapping_step`, `procrustes`, `decay_map_lr`.
- `src/main.py`: `prepare_alignment_file`, `generate_alignment_file`.

Modelling conventions:
- Tensors are nested lists; a `[B, S, D]` float tensor is a
  `List (List (List ℚ))` (exact rationals stand in for floats; the claims
  under study are about element selection and closed-form identities, not
  rounding).  Where the code divides by an L2 norm (a square root), the
  model uses `ℝ`.
- Python strings are `List Char` (Lean `String` operations are not
  kernel-reducible, `List Char` is).
- File contents are lists of lines; writing to a file becomes a pure
  function from the previous contents to the new contents.
-/

namespace CLBT

open Matrix

/-! ## Python string helpers (`List Char` model) -/

/-- Python `str.strip()`: drop whitespace from both ends. -/
def pyStrip (s : List Char) : List Char :=
  ((s.dropWhile Char.isWhitespace).reverse.dropWhile Char.isWhitespace).reverse

/-- Python `str.startswith(pat)`. -/
def listStartsWith : List Char → List Char → Bool
  | _, [] => true
  | [], _ :: _ => false
  | c :: cs, p :: ps => c == p && listStartsWith cs ps

/-- Python `pat in s` (substring containment). -/
def hasSubstr : List Char → List Char → Bool
  | hay, pat =>
    if listStartsWith hay pat then true
    else
      match hay with
      | [] => false
      | _ :: t => hasSubstr t pat

/-! ## `SupervisedBertTrainer.select` (supervised_bert_trainer.py lines 149-160)

`select(layer, mask)` is
`layer.masked_select(mask.byte().view(B, S, 1).expand(-1, -1, D)).view(-1, D)`.
`masked_select` flattens both tensors in row-major order and keeps the
elements at `true` mask positions; `view(-1, D)` regroups the flat result
into rows of length `D`.  Mask entries are modelled as `Bool` (the code's
0/1 mask after `.byte()`). -/

/-- `torch.masked_select` on already-flattened input and mask. -/
def maskedSelect (xs : List ℚ) (ms : List Bool) : List ℚ :=
  ((xs.zip ms).filter (fun p => p.2)).map Prod.fst

/-- Row-major flattening of a `[B, S, D]` tensor. -/
def flatten3 (layer : List (List (List ℚ))) : List ℚ :=
  layer.flatten.flatten

/-- Row-major flattening of `mask.view(B, S, 1).expand(-1, -1, D)`:
each mask bit is repeated `D` times. -/
def expandedMask (mask : List (List Bool)) (D : Nat) : List Bool :=
  mask.flatten.flatMap (fun b => List.replicate D b)

/-- `view(-1, D)`: regroup a flat list into consecutive rows of length `D`
(fuel-driven structural recursion; the fuel is instantiated with the list
length, which always suffices). -/
def chunkFuel : Nat → Nat → List ℚ → List (List ℚ)
  | 0, _, _ => []
  | _, _, [] => []
  | fuel + 1, D, xs =>
    if D = 0 then [] else xs.take D :: chunkFuel fuel D (xs.drop D)

/-- `view(-1, D)` of a flat list. -/
def chunk (D : Nat) (xs : List ℚ) : List (List ℚ) :=
  chunkFuel xs.length D xs

/-- `SupervisedBertTrainer.select`.  As in the code, the output dimension is
read off the shape of `layer`. -/
def select (layer : List (List (List ℚ))) (mask : List (List Bool)) :
    List (List ℚ) :=
  let output_dim := ((layer.headD []).headD []).length
  chunk output_dim (maskedSelect (flatten3 layer) (expandedMask mask output_dim))

/-- The specification's description of `select`: the rows `layer[b][s]` with
`mask[b][s] = 1`, concatenated in row-major (batch, then sequence) order. -/
def selectSpec (layer : List (List (List ℚ))) (mask : List (List Bool)) :
    List (List ℚ) :=
  (layer.zip mask).flatMap
    (fun p => ((p.1.zip p.2).filter (fun q => q.2)).map Prod.fst)

/-- Shape predicate: `layer` is a regular `[B, S, D]` tensor and `mask` a
regular `[B, S]` tensor. -/
def WellShaped (layer : List (List (List ℚ))) (mask : List (List Bool))
    (B S D : Nat) : Prop :=
  layer.length = B ∧ mask.length = B ∧
    (∀ r ∈ layer, r.length = S ∧ ∀ v ∈ r, v.length = D) ∧
    (∀ m ∈ mask, m.length = S)

instance (layer : List (List (List ℚ))) (mask : List (List Bool))
    (B S D : Nat) : Decidable (WellShaped layer mask B S D) := by
  unfold WellShaped; infer_instance

/-! ## `SupervisedBertTrainer.rearange` (supervised_bert_trainer.py lines 162-177)

`rearange(layer, index)` expands `index : [B, A]` to `[B, A, D]` and applies
`layer.gather(1, expanded_index)`, i.e.
`out[b][a][d] = layer[b][expanded_index[b][a][d]][d]`. -/

/-- One output vector of `torch.gather(dim=1)`: element `d` of the result is
`rows[irow[d]][d]` (out-of-range access modelled by `getD` defaults, as the
claims only concern in-range indices). -/
def gatherElems (rows : List (List ℚ)) : Nat → List Nat → List ℚ
  | _, [] => []
  | d, i :: is => ((rows.getD i []).getD d 0) :: gatherElems rows (d + 1) is

/-- `layer.gather(1, eidx)` for a `[B, A, D]` index tensor `eidx`. -/
def gather1 (layer : List (List (List ℚ))) (eidx : List (List (List Nat))) :
    List (List (List ℚ)) :=
  (layer.zip eidx).map (fun p => p.2.map (fun irow => gatherElems p.1 0 irow))

/-- `index.view(B, A, 1).expand(-1, -1, D)`. -/
def expandIndex (index : List (List Nat)) (D : Nat) : List (List (List Nat)) :=
  index.map (fun row => row.map (fun i => List.replicate D i))

/-- `SupervisedBertTrainer.rearange`. -/
def rearange (layer : List (List (List ℚ))) (index : List (List Nat)) :
    List (List (List ℚ)) :=
  let output_dim := ((layer.headD []).headD []).length
  gather1 layer (expandIndex index output_dim)

/-- The specification's description of `rearange`:
`output[b][a] = layer[b][index[b][a]]`. -/
def rearangeSpec (layer : List (List (List ℚ))) (index : List (List Nat)) :
    List (List (List ℚ)) :=
  (layer.zip index).map (fun p => p.2.map (fun i => p.1.getD i []))

/-- Shape predicate for a regular `[B, S, D]` tensor. -/
def TensorShaped (layer : List (List (List ℚ))) (B S D : Nat) : Prop :=
  layer.length = B ∧ ∀ r ∈ layer, r.length = S ∧ ∀ v ∈ r, v.length = D

/-- Shape/range predicate for a `[B, A]` index tensor with values in `[0, S)`. -/
def IndexShaped (index : List (List Nat)) (B A S : Nat) : Prop :=
  index.length = B ∧ ∀ row ∈ index, row.length = A ∧ ∀ i ∈ row, i < S

instance (layer : List (List (List ℚ))) (B S D : Nat) :
    Decidable (TensorShaped layer B S D) := by
  unfold TensorShaped; infer_instance

instance (index : List (List Nat)) (B A S : Nat) :
    Decidable (IndexShaped index B A S) := by
  unfold IndexShaped; infer_instance

/-! ## `SupervisedBertTrainer.supervised_mapping_step`
(supervised_bert_trainer.py lines 52-121)

The embeddings are `[N, D]` real matrices as nested lists.  The L2 row
normalization divides by `Real.sqrt`, so this part of the model lives in `ℝ`.
The backward pass and the optimizer step (`loss.backward()`,
`self.map_optimizer.step()`) are autograd side effects outside the value
semantics modelled here; the function returns the `(avg_cos_sim, loss)` pair
the code returns.  The NaN check `(loss != loss).data.any()` is identically
false in exact real arithmetic and is dropped (see the discussion of the
NaN claim in the results). -/

/-- Row-wise dot product, `(u * v).sum(1)` for one row pair. -/
def rowDot (u v : List ℝ) : ℝ := (List.zipWith (· * ·) u v).sum

/-- `gold_scores = (src_emb * tgt_emb).sum(1)`. -/
def goldScores (src tgt : List (List ℝ)) : List ℝ := List.zipWith rowDot src tgt

/-- `scores = src_emb.mm(tgt_emb.transpose(0, 1))`:
`scores[i][j] = dot(src_i, tgt_j)`. -/
def scoresMatrix (src tgt : List (List ℝ)) : List (List ℝ) :=
  src.map (fun si => tgt.map (fun tj => rowDot si tj))

noncomputable instance : DecidableRel (fun a b : ℝ => b ≤ a) :=
  fun a b => inferInstanceAs (Decidable (b ≤ a))

/-- `row.topk(k, largest=True, sorted=True)`: the `k` largest entries of a
row, in descending order. -/
noncomputable def topkRow (k : Nat) (row : List ℝ) : List ℝ :=
  (List.insertionSort (fun a b : ℝ => b ≤ a) row).take k

/-- `tensor.mean()` of a 1-D tensor. -/
noncomputable def listMean (xs : List ℝ) : ℝ := xs.sum / (xs.length : ℝ)

/-- The `max_margin_top-k` branch: `losses = margin - gold_vals + top_vals`,
clamped at `0` by `torch.where(losses > 0, losses, 0)`, then `.mean()` over
the `(n, k)` matrix. -/
noncomputable def maxMarginTopLoss (src tgt : List (List ℝ)) (k : Nat)
    (margin : ℝ) : ℝ :=
  let gold := goldScores src tgt
  let top_vals := (scoresMatrix src tgt).map (topkRow k)
  let losses :=
    List.zipWith (fun g row => row.map (fun t => margin - g + t)) gold top_vals
  let clamped := losses.map (fun row => row.map (fun x => if 0 < x then x else 0))
  listMean clamped.flatten

/-- L2 row normalization,
`emb / emb.norm(2, 1, keepdim=True).expand_as(emb)`. -/
noncomputable def l2normalizeRows (e : List (List ℝ)) : List (List ℝ) :=
  e.map (fun r => r.map (fun x => x / Real.sqrt ((r.map (fun y => y * y)).sum)))

/-- The loss selector `self.args.loss`; the code's string
`'max_margin_top-k'` is parsed to its `k` (`int(self.args.loss.split('-')[1])`). -/
inductive LossType
  | cos_sim
  | l2_dist
  | max_margin_top (k : Nat)

/-- The `args` fields read by `supervised_mapping_step`. -/
structure StepArgs where
  normalize_embed : Bool
  loss : LossType

/-- `SupervisedBertTrainer.supervised_mapping_step`: optional normalization,
loss dispatch, re-normalization for the diagnostic, returning
`(avg_cos_sim, loss)`. -/
noncomputable def supervised_mapping_step (args : StepArgs)
    (src_emb tgt_emb : List (List ℝ)) (margin : ℝ) : ℝ × ℝ :=
  let src := if args.normalize_embed then l2normalizeRows src_emb else src_emb
  let tgt := if args.normalize_embed then l2normalizeRows tgt_emb else tgt_emb
  let loss : ℝ :=
    match args.loss with
    | .cos_sim => -listMean (goldScores src tgt)
    | .l2_dist =>
        listMean (List.zipWith
          (fun u v => rowDot (List.zipWith (· - ·) u v) (List.zipWith (· - ·) u v))
          src tgt)
    | .max_margin_top k => maxMarginTopLoss src tgt k margin
  let src2 := if args.normalize_embed then src else l2normalizeRows src
  let tgt2 := if args.normalize_embed then tgt else l2normalizeRows tgt
  let avg_cos_sim := listMean (goldScores src2 tgt2)
  (avg_cos_sim, loss)

/-! ## `SupervisedBertTrainer.procrustes`
(supervised_bert_trainer.py lines 237-253)

`M = B.transpose(0, 1).mm(A)` is decomposed by `scipy.linalg.svd` (an
external numerical routine, modelled as an oracle argument `svd` returning
`(U, S, V_t)`); the mapping weight is overwritten in place with
`U.dot(V_t)`.  The other trainer fields are untouched. -/

/-- The trainer's mutable state (`__init__`): mapping weight, best validation
metric, lr-decrease flag. -/
structure TrainerState (d : Nat) where
  weight : Matrix (Fin d) (Fin d) ℝ
  best_valid_metric : ℝ
  decrease_lr : Bool

/-- `SupervisedBertTrainer.procrustes`.  `svd` stands for
`scipy.linalg.svd(·, full_matrices=True)`. -/
noncomputable def procrustes {v d : Nat}
    (src_embs tgt_embs : Matrix (Fin v) (Fin d) ℝ)
    (svd : Matrix (Fin d) (Fin d) ℝ →
      Matrix (Fin d) (Fin d) ℝ × Matrix (Fin d) (Fin d) ℝ × Matrix (Fin d) (Fin d) ℝ)
    (st : TrainerState d) : TrainerState d :=
  let A := src_embs
  let B := tgt_embs
  let M := Bᵀ * A
  let USVt := svd M
  { st with weight := USVt.1 * USVt.2.2 }

/-- Orthogonality of a square real matrix. -/
def IsOrthogonal {d : Nat} (M : Matrix (Fin d) (Fin d) ℝ) : Prop :=
  Mᵀ * M = 1

/-- `(U, S, Vt)` is a full singular value decomposition of `M`: `M = U·S·Vᵗ`
with `U`, `Vᵗ` orthogonal and `S` diagonal with nonnegative entries. -/
def IsSVD {d : Nat} (M U S Vt : Matrix (Fin d) (Fin d) ℝ) : Prop :=
  M = U * S * Vt ∧ IsOrthogonal U ∧ IsOrthogonal Vt ∧
    ∃ s : Fin d → ℝ, S = Matrix.diagonal s ∧ ∀ i, 0 ≤ s i

/-! ## `SupervisedBertTrainer.decay_map_lr`
(supervised_bert_trainer.py lines 255-265) -/

/-- The `args` fields read by `decay_map_lr`. -/
structure DecayArgs where
  map_optimizer : List Char
  min_lr : ℚ
  lr_decay : ℚ

/-- The literal `'sgd'` as a character list. -/
def sgdChars : List Char := "sgd".toList

/-- `SupervisedBertTrainer.decay_map_lr`, acting on the single learning rate
`self.map_optimizer.param_groups[0]['lr']`: returns the new learning rate.
Early-returns the old rate when `'sgd' not in self.args.map_optimizer`;
otherwise `new_lr = max(min_lr, old_lr * lr_decay)`, applied only when it
strictly decreases the rate. -/
def decay_map_lr (args : DecayArgs) (lr : ℚ) : ℚ :=
  if hasSubstr args.map_optimizer sgdChars = false then lr
  else
    let new_lr := max args.min_lr (lr * args.lr_decay)
    if new_lr < lr then new_lr else lr

/-- The configuration of the spec's worked example: an SGD-family optimizer
with `lr_decay = 0.5` and `min_lr = 0.01`. -/
def sgdTestArgs : DecayArgs := ⟨sgdChars, 1/100, 1/2⟩

/-! ## `main.py`: `prepare_alignment_file` and `generate_alignment_file`

Files are modelled by their line lists (`List (List Char)`, newlines
stripped: each `f.write(line + '\n')` appends one element). -/

/-- The separator `' ||| '`. -/
def sepChars : List Char := " ||| ".toList

/-- `main.generate_alignment_file`, as a function from the two input files'
line lists to either the output file's line list or the raised exception's
message.  Output line `i` is `src_lines[i].strip() + ' ||| ' +
tgt_lines[i].strip()`; a length mismatch raises
`'Length is not the same. Src: {len}. Tgt: {len}.'` before the output file
is opened. -/
def generate_alignment_file (src_lines tgt_lines : List (List Char)) :
    Except (List Char) (List (List Char)) :=
  if src_lines.length ≠ tgt_lines.length then
    .error ("Length is not the same. Src: ".toList
      ++ (Nat.toDigits 10 src_lines.length)
      ++ ". Tgt: ".toList
      ++ (Nat.toDigits 10 tgt_lines.length)
      ++ ".".toList)
  else
    .ok ((src_lines.zip tgt_lines).map
      (fun p => pyStrip p.1 ++ sepChars ++ pyStrip p.2))

/-- One entry of a parsed line's `'features'` list (only the `'token'` field
is read). -/
structure Feature where
  token : List Char

/-- One parsed line of the source file (`json.loads`; only `'features'` is
read). -/
structure LinexIndex where
  features : List Feature

/-- The literal `'[CLS]'`. -/
def clsChars : List Char := "[CLS]".toList

/-- The literal `'[SEP]'`. -/
def sepTokChars : List Char := "[SEP]".toList

/-- The literal `'##'`. -/
def hashChars : List Char := "##".toList

/-- The token list collected for one parsed line: drop `'[CLS]'`/`'[SEP]'`;
without `with_hashtag`, strip a leading `'##'`. -/
def collectTokens (with_hashtag : Bool) (lx : LinexIndex) : List (List Char) :=
  ((lx.features.map (fun f => f.token)).filter
      (fun t => !(t == clsChars) && !(t == sepTokChars))).map
    (fun t => if with_hashtag then t
      else if listStartsWith t hashChars then t.drop 2 else t)

/-- The line written for one parsed input line: `' '.join(tokens)`. -/
def lineFor (with_hashtag : Bool) (lx : LinexIndex) : List Char :=
  List.intercalate [' '] (collectTokens with_hashtag lx)

/-- `main.prepare_alignment_file`, as a function from the parsed source file
(`linex_indexes`, after the `json.loads` loop) and the target file's current
contents to the target file's new contents.  The target is opened with
`open(tgt, 'a')` — append mode — so the generated lines follow the existing
ones. -/
def prepare_alignment_file (linex_indexes : List LinexIndex)
    (with_hashtag : Bool) (tgt_contents : List (List Char)) :
    List (List Char) :=
  tgt_contents ++ linex_indexes.map (lineFor with_hashtag)

/-! ## Concrete data used by witness theorems -/

/-- A concrete `[2, 2, 2]` layer tensor. -/
def w1layer : List (List (List ℚ)) := [[[1, 2], [3, 4]], [[5, 6], [7, 8]]]

/-- A concrete `[2, 2]` mask. -/
def w1mask : List (List Bool) := [[true, false], [false, true]]

/-- A concrete `[1, 2]` index tensor: the swap permutation of `[0, 2)`. -/
def w2swap : List (List Nat) := [[1, 0]]

/-- A concrete `[1, 2, 2]` layer tensor. -/
def w2layer : List (List (List ℚ)) := [[[1, 2], [3, 4]]]

/-- A non-SGD optimizer configuration. -/
def adamTestArgs : DecayArgs := ⟨"adam".toList, 1/100, 1/2⟩

/-- The 90-degree rotation, an orthogonal matrix that is not symmetric. -/
noncomputable def Rrot : Matrix (Fin 2) (Fin 2) ℝ := !![0, -1; 1, 0]

/-- An SVD oracle returning the (valid) decomposition `(Rrotᵀ, 1, 1)` of
`Rrotᵀ`. -/
noncomputable def svdRot : Matrix (Fin 2) (Fin 2) ℝ →
    Matrix (Fin 2) (Fin 2) ℝ × Matrix (Fin 2) (Fin 2) ℝ × Matrix (Fin 2) (Fin 2) ℝ :=
  fun _ => (Rrotᵀ, 1, 1)

/-- A concrete trainer state (identity weight, as the mapping is initialized). -/
noncomputable def st2 : TrainerState 2 := ⟨1, 0, false⟩

/-! ## Theorems -/

theorem maskedSelect_append {xs ys : List ℚ} {ms ns : List Bool}
    (h : xs.length = ms.length) :
    maskedSelect (xs ++ ys) (ms ++ ns) = maskedSelect xs ms ++ maskedSelect ys ns := by
  unfold maskedSelect
  rw [List.zip_append h, List.filter_append, List.map_append]

theorem maskedSelect_replicate (v : List ℚ) (b : Bool) :
    maskedSelect v (List.replicate v.length b) = if b then v else [] := by
  induction v with
  | nil => cases b <;> simp [maskedSelect]
  | cons x xs ih =>
    simp only [List.length_cons, List.replicate_succ, maskedSelect,
      List.zip_cons_cons, List.filter_cons] at ih ⊢
    cases b <;> simp_all [maskedSelect]

theorem flatten_length_uniform {r : List (List ℚ)} {D : Nat}
    (h : ∀ v ∈ r, v.length = D) : r.flatten.length = r.length * D := by
  induction r with
  | nil => simp
  | cons v r ih =>
    simp only [List.flatten_cons, List.length_append, List.length_cons]
    rw [h v (by simp), ih (fun v hv => h v (by simp [hv]))]
    ring

theorem flatMap_replicate_length {m : List Bool} {D : Nat} :
    (m.flatMap (fun b => List.replicate D b)).length = m.length * D := by
  induction m with
  | nil => simp
  | cons b m ih =>
    simp only [List.flatMap_cons, List.length_append, List.length_replicate,
      List.length_cons, ih]
    ring

theorem maskedSelect_flatten_row (D : Nat) :
    ∀ (r : List (List ℚ)) (m : List Bool), r.length = m.length →
      (∀ v ∈ r, v.length = D) →
      maskedSelect r.flatten (m.flatMap (fun b => List.replicate D b)) =
        (((r.zip m).filter (fun q => q.2)).map Prod.fst).flatten := by
  intro r
  induction r with
  | nil =>
    intro m h _
    cases m with
    | nil => simp [maskedSelect]
    | cons b m' => simp at h
  | cons v r ih =>
    intro m h hD
    cases m with
    | nil => simp at h
    | cons b m' =>
      have hv : v.length = D := hD v (by simp)
      simp only [List.flatten_cons, List.flatMap_cons]
      rw [maskedSelect_append (by simp [hv]),
        ih m' (by simpa using h) (fun u hu => hD u (by simp [hu])),
        ← hv, maskedSelect_replicate]
      cases b <;> simp

theorem maskedSelect_flatten3 (D : Nat) :
    ∀ (layer : List (List (List ℚ))) (mask : List (List Bool)),
      layer.length = mask.length →
      (∀ p ∈ layer.zip mask, p.1.length = p.2.length) →
      (∀ r ∈ layer, ∀ v ∈ r, v.length = D) →
      maskedSelect (flatten3 layer) (expandedMask mask D) =
        (selectSpec layer mask).flatten := by
  intro layer
  induction layer with
  | nil =>
    intro mask h _ _
    cases mask with
    | nil => simp [maskedSelect, flatten3, expandedMask, selectSpec]
    | cons m M => simp at h
  | cons r L ih =>
    intro mask h hpair hD
    cases mask with
    | nil => simp at h
    | cons m M =>
      have hrm : r.length = m.length := hpair (r, m) (by simp)
      simp only [flatten3, expandedMask, selectSpec, List.flatten_cons,
        List.flatten_append, List.flatMap_append, List.flatMap_cons,
        List.zip_cons_cons] at *
      rw [maskedSelect_append
          (by rw [flatten_length_uniform (hD r (by simp)), flatMap_replicate_length, hrm]),
        maskedSelect_flatten_row D r m hrm (hD r (by simp)),
        ih M (by simpa using h)
          (fun p hp => hpair p (by simp [hp]))
          (fun u hu => hD u (by simp [hu]))]

theorem chunkFuel_flatten {D : Nat} (hD : 0 < D) :
    ∀ (L : List (List ℚ)) (fuel : Nat), (∀ r ∈ L, r.length = D) →
      L.flatten.length ≤ fuel → chunkFuel fuel D L.flatten = L := by
  intro L
  induction L with
  | nil =>
    intro fuel _ _
    cases fuel <;> simp [chunkFuel]
  | cons v L ih =>
    intro fuel hlen hfuel
    have hv : v.length = D := hlen v (by simp)
    obtain ⟨x, xs, rfl⟩ : ∃ x xs, v = x :: xs := by
      cases v with
      | nil => simp at hv; omega
      | cons x xs => exact ⟨x, xs, rfl⟩
    cases fuel with
    | zero =>
      exfalso
      simp only [List.flatten_cons, List.length_append, List.length_cons,
        Nat.le_zero] at hfuel
      omega
    | succ f =>
      simp only [List.flatten_cons, chunkFuel]
      rw [if_neg (by omega)]
      rw [show x :: xs.append L.flatten = (x :: xs) ++ L.flatten from rfl]
      rw [show (x :: xs ++ L.flatten).take D = x :: xs from
          List.take_left' (by simpa using hv),
        show (x :: xs ++ L.flatten).drop D = L.flatten from
          List.drop_left' (by simpa using hv)]
      congr 1
      apply ih f (fun r hr => hlen r (by simp [hr]))
      have : (x :: xs ++ L.flatten).length ≤ f + 1 := by simpa using hfuel
      simp only [List.length_append, List.length_cons] at this
      omega

theorem filter_zip_length :
    ∀ (r : List (List ℚ)) (m : List Bool), r.length = m.length →
      ((r.zip m).filter (fun q => q.2)).length =
        (m.filter (fun b => b)).length := by
  intro r
  induction r with
  | nil =>
    intro m h
    cases m with
    | nil => simp
    | cons b m' => simp at h
  | cons v r ih =>
    intro m h
    cases m with
    | nil => simp at h
    | cons b m' =>
      simp only [List.zip_cons_cons, List.filter_cons]
      cases b <;> simp [ih m' (by simpa using h)]

theorem selectSpec_length :
    ∀ (layer : List (List (List ℚ))) (mask : List (List Bool)),
      layer.length = mask.length →
      (∀ p ∈ layer.zip mask, p.1.length = p.2.length) →
      (selectSpec layer mask).length =
        ((mask.flatten).filter (fun b => b)).length := by
  intro layer
  induction layer with
  | nil =>
    intro mask h _
    cases mask with
    | nil => simp [selectSpec]
    | cons m M => simp at h
  | cons r L ih =>
    intro mask h hpair
    cases mask with
    | nil => simp at h
    | cons m M =>
      simp only [selectSpec, List.zip_cons_cons, List.flatMap_cons,
        List.flatten_cons, List.length_append, List.filter_append]
      rw [List.length_map, filter_zip_length r m (hpair (r, m) (by simp))]
      have := ih M (by simpa using h) (fun p hp => hpair p (by simp [hp]))
      simp only [selectSpec] at this
      rw [this]

theorem selectSpec_row_length {layer : List (List (List ℚ))}
    {mask : List (List Bool)} {D : Nat}
    (hrows : ∀ r ∈ layer, ∀ v ∈ r, v.length = D) :
    ∀ row ∈ selectSpec layer mask, row.length = D := by
  intro row hrow
  simp only [selectSpec, List.mem_flatMap] at hrow
  obtain ⟨p, hp, hrow⟩ := hrow
  simp only [List.mem_map, List.mem_filter] at hrow
  obtain ⟨q, ⟨hq, _⟩, rfl⟩ := hrow
  exact hrows p.1 (List.of_mem_zip hp).1 q.1 (List.of_mem_zip hq).1

/-- C1: for a well-shaped `[B, S, D]` layer and `[B, S]` mask with `D > 0`,
`select` returns exactly the rows `layer[b][s]` at positions with
`mask[b][s]` set, concatenated in row-major (batch, then sequence) order;
the output row count is the number of set mask bits and every output row has
length `D` (output shape `[U, D]`). -/
theorem select_correct (layer : List (List (List ℚ))) (mask : List (List Bool))
    (B S D : Nat) (hshape : WellShaped layer mask B S D) (hD : 0 < D) :
    select layer mask = selectSpec layer mask
    ∧ (select layer mask).length = ((mask.flatten).filter (fun b => b)).length
    ∧ ∀ row ∈ select layer mask, row.length = D := by
  obtain ⟨hB, hmB, hrows, hmrows⟩ := hshape
  have hlen : layer.length = mask.length := by rw [hB, hmB]
  have hpair : ∀ p ∈ layer.zip mask, p.1.length = p.2.length := by
    intro p hp
    obtain ⟨h1, h2⟩ := List.of_mem_zip hp
    rw [(hrows _ h1).1, hmrows _ h2]
  have hD2 : ∀ r ∈ layer, ∀ v ∈ r, v.length = D := fun r hr => (hrows r hr).2
  have hmain : select layer mask = selectSpec layer mask := by
    cases layer with
    | nil =>
      cases mask with
      | nil => rfl
      | cons m M => simp at hlen
    | cons r L =>
      cases Nat.eq_zero_or_pos S with
      | inl hS0 =>
        have hempty : ∀ r' ∈ r :: L, r' = [] := by
          intro r' hr'
          have := (hrows r' hr').1
          rw [hS0] at this
          exact List.eq_nil_of_length_eq_zero this
        have hmempty : ∀ m' ∈ mask, m' = [] := by
          intro m' hm'
          have := hmrows m' hm'
          rw [hS0] at this
          exact List.eq_nil_of_length_eq_zero this
        have hlf : (r :: L).flatten = [] := by
          rw [List.flatten_eq_nil_iff]
          exact hempty
        have hmf : mask.flatten = [] := by
          rw [List.flatten_eq_nil_iff]
          exact hmempty
        have hspec : selectSpec (r :: L) mask = [] := by
          rw [selectSpec, List.flatMap_eq_nil_iff]
          intro p hp
          rw [hempty p.1 (List.of_mem_zip hp).1]
          rfl
        simp [select, flatten3, expandedMask, hlf, hmf, maskedSelect, chunk,
          chunkFuel, hspec]
      | inr hSpos =>
        have hrS : r.length = S := (hrows r (by simp)).1
        obtain ⟨v, r', rfl⟩ : ∃ v r', r = v :: r' := by
          cases r with
          | nil => simp at hrS; omega
          | cons v r' => exact ⟨v, r', rfl⟩
        have hdc : ((((v :: r') :: L).headD []).headD []).length = D := by
          simp only [List.headD_cons]
          exact hD2 (v :: r') (by simp) v (by simp)
        simp only [select, List.headD_cons]
        rw [show v.length = D from hdc]
        rw [maskedSelect_flatten3 D _ mask hlen hpair hD2]
        exact chunkFuel_flatten hD _ _
          (selectSpec_row_length hD2) (le_refl _)
  refine ⟨hmain, ?_, ?_⟩
  · rw [hmain, selectSpec_length layer mask hlen hpair]
  · rw [hmain]
    exact selectSpec_row_length hD2

/-- Witness for the select theorem: a concrete `[2, 2, 2]` layer and mask. -/
theorem select_correct_witness :
    WellShaped w1layer w1mask 2 2 2 ∧ (0 : Nat) < 2
      ∧ select w1layer w1mask = selectSpec w1layer w1mask :=
  ⟨by decide, by decide,
    (select_correct w1layer w1mask 2 2 2 (by decide) (by decide)).1⟩

theorem gatherElems_replicate (rows : List (List ℚ)) (i : Nat) :
    ∀ (n d : Nat), (rows.getD i []).length = d + n →
      gatherElems rows d (List.replicate n i) = (rows.getD i []).drop d := by
  intro n
  induction n with
  | zero =>
    intro d h
    simp only [List.replicate, gatherElems]
    symm
    apply List.drop_eq_nil_of_le
    omega
  | succ n ih =>
    intro d h
    simp only [List.replicate_succ, gatherElems]
    rw [ih (d + 1) (by omega)]
    rw [List.getD_eq_getElem _ _ (show d < (rows.getD i []).length by omega)]
    exact (List.drop_eq_getElem_cons (by omega)).symm

theorem gatherElems_row (rows : List (List ℚ)) (i D : Nat)
    (hlen : (rows.getD i []).length = D) :
    gatherElems rows 0 (List.replicate D i) = rows.getD i [] := by
  rw [gatherElems_replicate rows i D 0 (by omega)]
  exact List.drop_zero _

theorem gather1_expandIndex (D : Nat) (layer : List (List (List ℚ)))
    (index : List (List Nat))
    (hD : ∀ r ∈ layer, ∀ v ∈ r, v.length = D)
    (hrange : ∀ p ∈ layer.zip index, ∀ i ∈ p.2, i < p.1.length) :
    gather1 layer (expandIndex index D) = rearangeSpec layer index := by
  unfold gather1 expandIndex rearangeSpec
  rw [List.zip_map_right, List.map_map]
  apply List.map_congr_left
  intro p hp
  simp only [Function.comp_apply, Prod.map, id]
  rw [List.map_map]
  apply List.map_congr_left
  intro i hi
  simp only [Function.comp_apply]
  have hilt : i < p.1.length := hrange p hp i hi
  apply gatherElems_row
  rw [List.getD_eq_getElem _ _ hilt]
  exact hD p.1 (List.of_mem_zip hp).1 _ (List.getElem_mem hilt)

theorem rearange_eq_spec (layer : List (List (List ℚ)))
    (index : List (List Nat)) (B S D A : Nat)
    (hT : TensorShaped layer B S D) (hI : IndexShaped index B A S) :
    rearange layer index = rearangeSpec layer index := by
  obtain ⟨hB, hrows⟩ := hT
  obtain ⟨hIB, hIrows⟩ := hI
  have hDc : ∀ r ∈ layer, ∀ v ∈ r,
      v.length = (((layer.headD []).headD []).length) := by
    intro r hr v hv
    cases layer with
    | nil => simp at hr
    | cons r0 L =>
      have hr0 : r0.length = S := (hrows r0 (by simp)).1
      have hrS : r.length = S := (hrows r hr).1
      have hS : 0 < S := by
        have := List.length_pos.mpr (List.ne_nil_of_mem hv)
        omega
      cases r0 with
      | nil => simp at hr0; omega
      | cons v0 r0' =>
        simp only [List.headD_cons]
        rw [(hrows r hr).2 v hv, (hrows (v0 :: r0') (by simp)).2 v0 (by simp)]
  simp only [rearange]
  apply gather1_expandIndex _ layer index hDc
  intro p hp i hi
  rw [(hrows p.1 (List.of_mem_zip hp).1).1]
  exact (hIrows p.2 (List.of_mem_zip hp).2).2 i hi

theorem zip_replicate_right {α β : Type} :
    ∀ (l : List α) (a : β), l.zip (List.replicate l.length a)
      = l.map (fun x => (x, a)) := by
  intro l a
  induction l with
  | nil => rfl
  | cons x xs ih =>
    simp only [List.length_cons, List.replicate_succ, List.zip_cons_cons,
      List.map_cons, ih]

theorem map_getD_range {α : Type} (r : List α) (d : α) :
    (List.range r.length).map (fun i => r.getD i d) = r := by
  apply List.ext_getElem
  · simp
  · intro n h1 h2
    simp only [List.getElem_map, List.getElem_range]
    exact List.getD_eq_getElem _ _ h2

theorem rearangeSpec_shaped (layer : List (List (List ℚ)))
    (index : List (List Nat)) (B S D A : Nat)
    (hT : TensorShaped layer B S D) (hI : IndexShaped index B A S) :
    TensorShaped (rearangeSpec layer index) B A D := by
  obtain ⟨hB, hrows⟩ := hT
  obtain ⟨hIB, hIrows⟩ := hI
  constructor
  · simp only [rearangeSpec, List.length_map, List.length_zip]
    omega
  · intro r hr
    simp only [rearangeSpec, List.mem_map] at hr
    obtain ⟨p, hp, rfl⟩ := hr
    constructor
    · rw [List.length_map]
      exact (hIrows p.2 (List.of_mem_zip hp).2).1
    · intro v hv
      simp only [List.mem_map] at hv
      obtain ⟨i, hi, rfl⟩ := hv
      have hiS : i < S := (hIrows p.2 (List.of_mem_zip hp).2).2 i hi
      have hp1 := hrows p.1 (List.of_mem_zip hp).1
      have hilt : i < p.1.length := by omega
      rw [List.getD_eq_getElem _ _ hilt]
      exact hp1.2 _ (List.getElem_mem hilt)

set_option maxHeartbeats 1600000 in
/-- C2: for a `[B, S, D]` layer and a `[B, A]` index with values in `[0, S)`,
`rearange` returns the `[B, A, D]` tensor with
`output[b][a] = layer[b][index[b][a]]`; with the identity index the output is
the original layer, and gathering with a permutation and then with its
inverse permutation restores the original order. -/
theorem rearange_correct (layer : List (List (List ℚ)))
    (index index2 : List (List Nat)) (B S D A : Nat)
    (hT : TensorShaped layer B S D) (hI : IndexShaped index B A S) :
    (rearange layer index = rearangeSpec layer index
      ∧ TensorShaped (rearange layer index) B A D)
    ∧ (index = List.replicate B (List.range S) → rearange layer index = layer)
    ∧ (IndexShaped index2 B A S → A = S →
        (∀ b, b < B → ∀ a, a < S →
          (index.getD b []).getD ((index2.getD b []).getD a 0) 0 = a) →
        rearange (rearange layer index) index2 = layer) := by
  obtain ⟨hB, hrows⟩ := hT
  obtain ⟨hIB, hIrows⟩ := hI
  have hspec := rearange_eq_spec layer index B S D A ⟨hB, hrows⟩ ⟨hIB, hIrows⟩
  refine ⟨⟨hspec, ?_⟩, ?_, ?_⟩
  · rw [hspec]
    exact rearangeSpec_shaped layer index B S D A ⟨hB, hrows⟩ ⟨hIB, hIrows⟩
  · intro hid
    rw [hspec, hid, rearangeSpec, ← hB, zip_replicate_right, List.map_map]
    have hcg : ∀ r ∈ layer,
        ((fun p : List (List ℚ) × List Nat => p.2.map (fun i => p.1.getD i []))
          ∘ (fun x => (x, List.range S))) r = r := by
      intro r hr
      simp only [Function.comp_apply]
      rw [← (hrows r hr).1]
      exact map_getD_range r []
    rw [List.map_congr_left hcg]
    simp
  · intro hI2 hAS hcomp
    subst hAS
    have hT' : TensorShaped (rearangeSpec layer index) B A D :=
      rearangeSpec_shaped layer index B A D A ⟨hB, hrows⟩ ⟨hIB, hIrows⟩
    rw [hspec, rearange_eq_spec _ index2 B A D A hT' hI2]
    obtain ⟨hIB2, hIrows2⟩ := hI2
    obtain ⟨hXB, hXrows⟩ := hT'
    apply List.ext_getElem
    · simp only [rearangeSpec, List.length_map, List.length_zip]
      omega
    · intro b hb1 hb2
      have hbB : b < B := by omega
      have hbI : b < index.length := by omega
      have hbI2 : b < index2.length := by omega
      simp only [rearangeSpec, List.getElem_map, List.getElem_zip]
      have hl2 : (index2[b]).length = A :=
        (hIrows2 index2[b] (List.getElem_mem hbI2)).1
      have hlb : (layer[b]).length = A := (hrows layer[b] (List.getElem_mem hb2)).1
      have hlI : (index[b]).length = A :=
        (hIrows index[b] (List.getElem_mem hbI)).1
      apply List.ext_getElem
      · simp only [List.length_map]
        omega
      · intro a ha1 ha2
        simp only [List.getElem_map]
        have haA : a < A := by omega
        have hj : index2[b][a] ∈ index2[b] := List.getElem_mem (by omega)
        have hjA : index2[b][a] < A :=
          (hIrows2 index2[b] (List.getElem_mem hbI2)).2 _ hj
        have hjI : index2[b][a] < (index[b]).length := by omega
        have hjmaplen : index2[b][a] <
            ((index[b]).map (fun i => (layer[b]).getD i [])).length := by
          have hlm := List.length_map (index[b]) (fun i => (layer[b]).getD i [])
          omega
        rw [List.getD_eq_getElem _ _ hjmaplen, List.getElem_map]
        have hcb := hcomp b hbB a haA
        rw [List.getD_eq_getElem _ _ hbI2, List.getD_eq_getElem _ _ hbI,
          List.getD_eq_getElem _ _ (show a < (index2[b]).length by omega),
          List.getD_eq_getElem _ _ hjI] at hcb
        rw [hcb, List.getD_eq_getElem _ _ (show a < (layer[b]).length by omega)]

/-- Witness for the rearange theorem: a `[1, 2, 2]` layer and the swap
permutation, which is its own inverse. -/
theorem rearange_correct_witness :
    TensorShaped w2layer 1 2 2 ∧ IndexShaped w2swap 1 2 2
      ∧ rearange w2layer w2swap = rearangeSpec w2layer w2swap
      ∧ rearange (rearange w2layer w2swap) w2swap = w2layer := by
  refine ⟨by decide, by decide, ?_, ?_⟩
  · exact (rearange_correct w2layer w2swap w2swap 1 2 2 2
      (by decide) (by decide)).1.1
  · exact (rearange_correct w2layer w2swap w2swap 1 2 2 2
      (by decide) (by decide)).2.2 (by decide) rfl (by decide)

theorem mem_zipWith_exists {α β γ : Type} {f : α → β → γ} {x : γ}
    {as : List α} {bs : List β} (h : x ∈ List.zipWith f as bs) :
    ∃ p ∈ as.zip bs, x = f p.1 p.2 := by
  induction as generalizing bs with
  | nil => simp at h
  | cons a as ih =>
    cases bs with
    | nil => simp at h
    | cons b bs =>
      simp only [List.zipWith_cons_cons, List.mem_cons] at h
      rcases h with h | h
      · exact ⟨(a, b), by simp, h⟩
      · obtain ⟨p, hp, hx⟩ := ih h
        exact ⟨p, by simp [hp], hx⟩

/-- C3: under the `max_margin_top-k` loss on raw embeddings, if every row's
gold score exceeds each of that row's top-k scores by at least the margin
`m`, the loss returned by `supervised_mapping_step` is `0`. -/
theorem max_margin_top_loss_zero (src tgt : List (List ℝ)) (k : Nat) (m : ℝ)
    (h : ∀ p ∈ (goldScores src tgt).zip (scoresMatrix src tgt),
      ∀ t ∈ topkRow k p.2, m + t ≤ p.1) :
    (supervised_mapping_step ⟨false, .max_margin_top k⟩ src tgt m).2 = 0 := by
  have hstep : (supervised_mapping_step ⟨false, .max_margin_top k⟩ src tgt m).2
      = maxMarginTopLoss src tgt k m := rfl
  rw [hstep]
  simp only [maxMarginTopLoss, listMean]
  rw [List.sum_eq_zero, zero_div]
  intro x hx
  rw [List.mem_flatten] at hx
  obtain ⟨row, hrow, hx⟩ := hx
  simp only [List.mem_map] at hrow
  obtain ⟨lrow, hlrow, rfl⟩ := hrow
  obtain ⟨p, hp, rfl⟩ := mem_zipWith_exists hlrow
  rw [List.zip_map_right] at hp
  simp only [List.mem_map] at hp
  obtain ⟨q, hq, rfl⟩ := hp
  simp only [List.mem_map, Prod.map, id] at hx
  obtain ⟨y, hy, rfl⟩ := hx
  obtain ⟨t, ht, rfl⟩ := hy
  have hle : m + t ≤ q.1 := h q hq t ht
  rw [if_neg]
  simp only [not_lt]
  linarith

/-- Witness for the max-margin theorem: a single aligned pair with margin
`0`. -/
theorem max_margin_top_loss_zero_witness :
    (∀ p ∈ (goldScores [[(1 : ℝ)]] [[(1 : ℝ)]]).zip
        (scoresMatrix [[(1 : ℝ)]] [[(1 : ℝ)]]),
      ∀ t ∈ topkRow 1 p.2, 0 + t ≤ p.1)
    ∧ (supervised_mapping_step ⟨false, .max_margin_top 1⟩
        [[(1 : ℝ)]] [[(1 : ℝ)]] 0).2 = 0 := by
  have hhyp : ∀ p ∈ (goldScores [[(1 : ℝ)]] [[(1 : ℝ)]]).zip
      (scoresMatrix [[(1 : ℝ)]] [[(1 : ℝ)]]),
      ∀ t ∈ topkRow 1 p.2, 0 + t ≤ p.1 := by
    intro p hp t ht
    simp only [goldScores, scoresMatrix, rowDot, List.zipWith_cons_cons,
      List.zipWith_nil, List.map_cons, List.map_nil, List.sum_cons,
      List.sum_nil, List.zip_cons_cons, List.zip_nil_right, List.mem_cons,
      List.not_mem_nil, or_false] at hp
    subst hp
    simp only [topkRow, List.insertionSort, List.orderedInsert,
      List.take_succ_cons, List.take_nil, List.mem_cons, List.not_mem_nil,
      or_false] at ht
    subst ht
    norm_num
  exact ⟨hhyp, max_margin_top_loss_zero [[(1 : ℝ)]] [[(1 : ℝ)]] 1 0 hhyp⟩

/-- C4: the `avg_cos_sim` returned by `supervised_mapping_step` is always the
mean row-wise dot product of the L2-row-normalized embeddings, for every
loss type and both settings of `normalize_embed` (when the loss used raw
vectors, the diagnostic still re-normalizes). -/
theorem avg_cos_sim_normalized (args : StepArgs)
    (src_emb tgt_emb : List (List ℝ)) (margin : ℝ)
    (_hsrc : ∀ r ∈ src_emb, ∃ x ∈ r, x ≠ 0)
    (_htgt : ∀ r ∈ tgt_emb, ∃ x ∈ r, x ≠ 0) :
    (supervised_mapping_step args src_emb tgt_emb margin).1 =
      listMean (goldScores (l2normalizeRows src_emb)
        (l2normalizeRows tgt_emb)) := by
  cases hn : args.normalize_embed <;> simp [supervised_mapping_step, hn]

/-- Witness for the avg-cos-sim theorem: nonzero one-element rows, with the
L2 loss on unnormalized embeddings. -/
theorem avg_cos_sim_normalized_witness :
    (∀ r ∈ [[(1 : ℝ)]], ∃ x ∈ r, x ≠ 0)
    ∧ (supervised_mapping_step ⟨false, .l2_dist⟩ [[(1 : ℝ)]] [[(1 : ℝ)]] 1).1 =
        listMean (goldScores (l2normalizeRows [[(1 : ℝ)]])
          (l2normalizeRows [[(1 : ℝ)]])) := by
  have hnz : ∀ r ∈ [[(1 : ℝ)]], ∃ x ∈ r, x ≠ 0 := by
    intro r hr
    simp only [List.mem_cons, List.not_mem_nil, or_false] at hr
    subst hr
    exact ⟨1, by simp, one_ne_zero⟩
  exact ⟨hnz,
    avg_cos_sim_normalized ⟨false, .l2_dist⟩ [[(1 : ℝ)]] [[(1 : ℝ)]] 1 hnz hnz⟩

/-- C5: `procrustes` computes `M = Bᵀ·A`, feeds it to the SVD routine, and
overwrites exactly the mapping weight with `U·Vᵗ`; the other trainer fields
are untouched, and the result is a single deterministic function of `A`, `B`
and the SVD routine (no iteration). -/
theorem procrustes_spec {v d : Nat} (A B : Matrix (Fin v) (Fin d) ℝ)
    (svd : Matrix (Fin d) (Fin d) ℝ →
      Matrix (Fin d) (Fin d) ℝ × Matrix (Fin d) (Fin d) ℝ × Matrix (Fin d) (Fin d) ℝ)
    (st : TrainerState d) :
    procrustes A B svd st =
      { weight := (svd (Bᵀ * A)).1 * (svd (Bᵀ * A)).2.2,
        best_valid_metric := st.best_valid_metric,
        decrease_lr := st.decrease_lr } := rfl

/-- C8: `decay_map_lr` is a no-op when the optimizer name does not contain
`'sgd'`; otherwise it computes `max(min_lr, lr * lr_decay)` and applies it
only when it strictly decreases the rate; with `lr = 0.1`, `decay = 0.5`,
`min_lr = 0.01` one call gives `0.05`, four calls floor at `0.01`, and
further calls change nothing. -/
theorem decay_map_lr_correct :
    (∀ args lr, hasSubstr args.map_optimizer sgdChars = false →
      decay_map_lr args lr = lr)
    ∧ (∀ args lr, hasSubstr args.map_optimizer sgdChars = true →
        decay_map_lr args lr =
          if max args.min_lr (lr * args.lr_decay) < lr then
            max args.min_lr (lr * args.lr_decay) else lr)
    ∧ decay_map_lr sgdTestArgs (1/10) = 1/20
    ∧ (fun lr => decay_map_lr sgdTestArgs lr)^[4] (1/10) = 1/100
    ∧ decay_map_lr sgdTestArgs (1/100) = 1/100 := by
  have hs : hasSubstr sgdTestArgs.map_optimizer sgdChars = true := by decide
  have heval : ∀ lr : ℚ, decay_map_lr sgdTestArgs lr =
      if max (1/100) (lr * (1/2)) < lr then max (1/100) (lr * (1/2)) else lr := by
    intro lr
    unfold decay_map_lr
    simp only [hs, Bool.true_eq_false, if_false]
    rfl
  have e1 : decay_map_lr sgdTestArgs (1/10) = 1/20 := by
    rw [heval]
    norm_num [max_def]
  have e2 : decay_map_lr sgdTestArgs (1/20) = 1/40 := by
    rw [heval]
    norm_num [max_def]
  have e3 : decay_map_lr sgdTestArgs (1/40) = 1/80 := by
    rw [heval]
    norm_num [max_def]
  have e4 : decay_map_lr sgdTestArgs (1/80) = 1/100 := by
    rw [heval]
    norm_num [max_def]
  have e5 : decay_map_lr sgdTestArgs (1/100) = 1/100 := by
    rw [heval]
    norm_num [max_def]
  refine ⟨?_, ?_, e1, ?_, e5⟩
  · intro args lr h
    simp [decay_map_lr, h]
  · intro args lr h
    simp [decay_map_lr, h]
  · show decay_map_lr sgdTestArgs (decay_map_lr sgdTestArgs
      (decay_map_lr sgdTestArgs (decay_map_lr sgdTestArgs (1/10)))) = 1/100
    rw [e1, e2, e3, e4]

/-- Witness for the decay theorem: an Adam optimizer name is left untouched. -/
theorem decay_map_lr_witness :
    hasSubstr adamTestArgs.map_optimizer sgdChars = false
    ∧ decay_map_lr adamTestArgs (3/10) = 3/10 :=
  ⟨by decide, decay_map_lr_correct.1 adamTestArgs (3/10) (by decide)⟩

/-- C9: `generate_alignment_file` on equal-length inputs writes, for each
`i`, the line `strip(src_i) + ' ||| ' + strip(tgt_i)`; on mismatched lengths
it raises an error naming both lengths and writes no output file. -/
theorem generate_alignment_file_correct (src_lines tgt_lines : List (List Char)) :
    (src_lines.length = tgt_lines.length →
      ∃ out, generate_alignment_file src_lines tgt_lines = .ok out
        ∧ out.length = src_lines.length
        ∧ ∀ i, i < src_lines.length →
            out.getD i [] = pyStrip (src_lines.getD i []) ++ sepChars
              ++ pyStrip (tgt_lines.getD i []))
    ∧ (src_lines.length ≠ tgt_lines.length →
        generate_alignment_file src_lines tgt_lines =
          .error ("Length is not the same. Src: ".toList
            ++ (Nat.toDigits 10 src_lines.length)
            ++ ". Tgt: ".toList
            ++ (Nat.toDigits 10 tgt_lines.length)
            ++ ".".toList)) := by
  constructor
  · intro heq
    refine ⟨(src_lines.zip tgt_lines).map
        (fun p => pyStrip p.1 ++ sepChars ++ pyStrip p.2), ?_, ?_, ?_⟩
    · simp [generate_alignment_file, heq]
    · simp only [List.length_map, List.length_zip]
      omega
    · intro i hi
      have hi2 : i < tgt_lines.length := by omega
      have hiz : i < ((src_lines.zip tgt_lines).map
          (fun p => pyStrip p.1 ++ sepChars ++ pyStrip p.2)).length := by
        simp only [List.length_map, List.length_zip]
        omega
      rw [List.getD_eq_getElem _ _ hiz, List.getElem_map, List.getElem_zip,
        List.getD_eq_getElem _ _ hi, List.getD_eq_getElem _ _ hi2]
  · intro hne
    simp [generate_alignment_file, hne]

/-- Witness for the alignment-file theorem: a one-line source against an
empty target raises the length error. -/
theorem generate_alignment_file_witness :
    ([['a']] : List (List Char)).length ≠ ([] : List (List Char)).length
    ∧ generate_alignment_file [['a']] [] =
        .error ("Length is not the same. Src: ".toList
          ++ (Nat.toDigits 10 ([['a']] : List (List Char)).length)
          ++ ". Tgt: ".toList
          ++ (Nat.toDigits 10 ([] : List (List Char)).length)
          ++ ".".toList) :=
  ⟨by decide, (generate_alignment_file_correct [['a']] []).2 (by decide)⟩

/-- C10: `prepare_alignment_file` opens its target in append mode: the
existing contents are preserved unchanged as a prefix, the generated token
lines follow them, and running it twice with the same arguments leaves the
generated lines present twice. -/
theorem prepare_alignment_file_appends (lxs : List LinexIndex) (wh : Bool)
    (existing : List (List Char)) :
    (prepare_alignment_file lxs wh existing).take existing.length = existing
    ∧ (prepare_alignment_file lxs wh existing).drop existing.length
        = lxs.map (lineFor wh)
    ∧ prepare_alignment_file lxs wh (prepare_alignment_file lxs wh existing)
        = existing ++ lxs.map (lineFor wh) ++ lxs.map (lineFor wh) := by
  unfold prepare_alignment_file
  exact ⟨List.take_left existing _, List.drop_left existing _, rfl⟩


theorem Rrot_orth : IsOrthogonal Rrot := by
  show Rrotᵀ * Rrot = 1
  ext i j
  fin_cases i <;> fin_cases j <;>
    simp [Rrot, Matrix.mul_apply, Fin.sum_univ_two, Matrix.one_apply,
      Matrix.transpose_apply, Matrix.cons_val_zero, Matrix.cons_val_one,
      Matrix.head_cons, Matrix.vecHead, Matrix.vecTail]

theorem Rrot_transpose_ne : Rrotᵀ ≠ Rrot := by
  intro h
  have h01 := congrFun (congrFun h 0) 1
  simp [Rrot, Matrix.transpose_apply] at h01
  norm_num at h01

theorem unitAtA : IsUnit (((1 : Matrix (Fin 2) (Fin 2) ℝ))ᵀ * 1) := by
  rw [Matrix.transpose_one, Matrix.one_mul]
  exact isUnit_one

theorem svdRot_valid :
    IsSVD (((1 : Matrix (Fin 2) (Fin 2) ℝ) * Rrot)ᵀ * 1) Rrotᵀ 1 1 := by
  refine ⟨?_, ?_, ?_, fun _ => 1, Matrix.diagonal_one.symm, fun i => zero_le_one⟩
  · simp
  · show Rrotᵀᵀ * Rrotᵀ = 1
    rw [Matrix.transpose_transpose]
    exact Matrix.mul_eq_one_comm.mp Rrot_orth
  · show (1 : Matrix (Fin 2) (Fin 2) ℝ)ᵀ * 1 = 1
    rw [Matrix.transpose_one, Matrix.one_mul]

/-- C6 (amended): with `B = A·R` for orthogonal `R` and `A` of full column
rank (`AᵀA` invertible), `procrustes` stores `W = Rᵀ` — the transpose of
`R`, not `R` itself — and the mapping as applied by the linear layer,
`x ↦ x·Wᵀ`, sends `A` to `A·Wᵀ = A·R = B`. -/
theorem procrustes_recovers (v d : Nat) (A : Matrix (Fin v) (Fin d) ℝ)
    (R : Matrix (Fin d) (Fin d) ℝ)
    (svd : Matrix (Fin d) (Fin d) ℝ →
      Matrix (Fin d) (Fin d) ℝ × Matrix (Fin d) (Fin d) ℝ × Matrix (Fin d) (Fin d) ℝ)
    (st : TrainerState d)
    (hR : IsOrthogonal R) (hA : IsUnit (Aᵀ * A))
    (hsvd : IsSVD ((A * R)ᵀ * A) (svd ((A * R)ᵀ * A)).1
      (svd ((A * R)ᵀ * A)).2.1 (svd ((A * R)ᵀ * A)).2.2) :
    (procrustes A (A * R) svd st).weight = Rᵀ
    ∧ A * ((procrustes A (A * R) svd st).weight)ᵀ = A * R := by
  obtain ⟨hdec, hUo, hVto, s, hSdiag, hsnn⟩ := hsvd
  set M : Matrix (Fin d) (Fin d) ℝ := (A * R)ᵀ * A with hMdef
  set U : Matrix (Fin d) (Fin d) ℝ := (svd M).1 with hUdef
  set S : Matrix (Fin d) (Fin d) ℝ := (svd M).2.1 with hSdef
  set Vt : Matrix (Fin d) (Fin d) ℝ := (svd M).2.2 with hVtdef
  set G : Matrix (Fin d) (Fin d) ℝ := Aᵀ * A with hGdef
  set P : Matrix (Fin d) (Fin d) ℝ := Vtᵀ * S * Vt with hPdef
  have hU : Uᵀ * U = 1 := hUo
  have hVt : Vtᵀ * Vt = 1 := hVto
  have hR' : Rᵀ * R = 1 := hR
  have hVtVt : Vt * Vtᵀ = 1 := Matrix.mul_eq_one_comm.mp hVt
  have hRRt : R * Rᵀ = 1 := Matrix.mul_eq_one_comm.mp hR'
  have hM2 : M = Rᵀ * G := by
    rw [hMdef, hGdef, Matrix.transpose_mul, Matrix.mul_assoc]
  have hGt : Gᵀ = G := by
    rw [hGdef, Matrix.transpose_mul, Matrix.transpose_transpose]
  have hWP : M = (U * Vt) * P := by
    rw [hdec, hPdef]
    have h1 : (U * Vt) * (Vtᵀ * S * Vt) = U * ((Vt * Vtᵀ) * (S * Vt)) := by
      simp only [Matrix.mul_assoc]
    rw [h1, hVtVt, Matrix.one_mul, ← Matrix.mul_assoc]
  have hSpsd : S.PosSemidef := by
    rw [hSdiag]
    exact Matrix.posSemidef_diagonal_iff.mpr hsnn
  have hPpsd : P.PosSemidef := by
    have h2 := hSpsd.conjTranspose_mul_mul_same Vt
    rwa [Matrix.conjTranspose_eq_transpose_of_trivial] at h2
  have hGpsd : G.PosSemidef := by
    have h3 := Matrix.posSemidef_conjTranspose_mul_self A
    rwa [Matrix.conjTranspose_eq_transpose_of_trivial] at h3
  have hPt : Pᵀ = P := by
    rw [hPdef, Matrix.transpose_mul, Matrix.transpose_mul,
      Matrix.transpose_transpose, hSdiag, Matrix.diagonal_transpose]
    simp only [Matrix.mul_assoc]
  have hL : Mᵀ * M = P * P := by
    calc Mᵀ * M = Pᵀ * ((Vtᵀ * (Uᵀ * U) * Vt) * P) := by
          rw [hWP]
          simp only [Matrix.transpose_mul, Matrix.mul_assoc]
    _ = Pᵀ * ((Vtᵀ * Vt) * P) := by rw [hU, Matrix.mul_one]
    _ = Pᵀ * P := by rw [hVt, Matrix.one_mul]
    _ = P * P := by rw [hPt]
  have hRm : Mᵀ * M = G * G := by
    calc Mᵀ * M = Gᵀ * ((R * Rᵀ) * G) := by
          rw [hM2]
          simp only [Matrix.transpose_mul, Matrix.transpose_transpose,
            Matrix.mul_assoc]
    _ = G * G := by rw [hRRt, Matrix.one_mul, hGt]
  have hsq : P ^ 2 = G ^ 2 := by
    rw [pow_two, pow_two, ← hL, hRm]
  have hPG : P = G := hPpsd.eq_of_sq_eq_sq hGpsd hsq
  have hWG : (U * Vt) * G = Rᵀ * G := by
    conv_lhs => rw [← hPG]
    rw [← hWP, hM2]
  letI : Invertible G := hA.invertible
  have hWeq : U * Vt = Rᵀ := by
    have h4 := congrArg (fun X => X * ⅟G) hWG
    simp only [Matrix.mul_assoc, mul_invOf_self, Matrix.mul_one] at h4
    exact h4
  have hwt : (procrustes A (A * R) svd st).weight = U * Vt := rfl
  refine ⟨?_, ?_⟩
  · rw [hwt, hWeq]
  · rw [hwt, hWeq, Matrix.transpose_transpose]

/-- C6 counterexample: with `A = 1`, the orthogonal rotation
`R = [[0, -1], [1, 0]]`, `B = A·R`, and the valid SVD `(Rᵀ, 1, 1)` of
`M = Bᵀ·A = Rᵀ`, `procrustes` stores the weight `Rᵀ`, which differs from
`R`; the claim as stated — the weight equals `R` and `A·W = B` — is false at
this input (both conjuncts fail). -/
theorem procrustes_claim_counterexample :
    IsOrthogonal Rrot
    ∧ IsUnit (((1 : Matrix (Fin 2) (Fin 2) ℝ))ᵀ * 1)
    ∧ IsSVD (((1 : Matrix (Fin 2) (Fin 2) ℝ) * Rrot)ᵀ * 1)
        (svdRot (((1 : Matrix (Fin 2) (Fin 2) ℝ) * Rrot)ᵀ * 1)).1
        (svdRot (((1 : Matrix (Fin 2) (Fin 2) ℝ) * Rrot)ᵀ * 1)).2.1
        (svdRot (((1 : Matrix (Fin 2) (Fin 2) ℝ) * Rrot)ᵀ * 1)).2.2
    ∧ ¬ ((procrustes 1 ((1 : Matrix (Fin 2) (Fin 2) ℝ) * Rrot) svdRot st2).weight
          = Rrot
        ∧ (1 : Matrix (Fin 2) (Fin 2) ℝ) *
            (procrustes 1 ((1 : Matrix (Fin 2) (Fin 2) ℝ) * Rrot) svdRot st2).weight
          = 1 * Rrot) := by
  refine ⟨Rrot_orth, unitAtA, svdRot_valid, ?_⟩
  intro hcl
  have hwt : (procrustes 1 ((1 : Matrix (Fin 2) (Fin 2) ℝ) * Rrot) svdRot st2).weight
      = Rrotᵀ := by
    show Rrotᵀ * 1 = Rrotᵀ
    rw [Matrix.mul_one]
  rw [hwt] at hcl
  exact Rrot_transpose_ne hcl.1

/-- Witness for the amended procrustes theorem at `A = 1` and the rotation
`R`: the stored weight is `Rᵀ`. -/
theorem procrustes_recovers_witness :
    IsOrthogonal Rrot
    ∧ IsUnit (((1 : Matrix (Fin 2) (Fin 2) ℝ))ᵀ * 1)
    ∧ (procrustes 1 ((1 : Matrix (Fin 2) (Fin 2) ℝ) * Rrot) svdRot st2).weight
        = Rrotᵀ :=
  ⟨Rrot_orth, unitAtA,
    (procrustes_recovers 2 2 1 Rrot svdRot st2 Rrot_orth unitAtA svdRot_valid).1⟩

end CLBT
